import Mathlib

/-!
Verification of the registry-driven JSON serialization engine
(`src/serialization/serializable.py`) against its specification.

The embedding models Python values reachable by the engine as a tree
(`JVal`), Python `__dict__`s and JSON mappings as ordered association
lists (insertion-ordered, like CPython dicts), and the two global
registries (`Serializer.serializers`, `Deserializer.deserializers`,
`Serializable.serializable_types`) as an explicit environment `Env`.
Machine-level recursion through `json.dumps`'s `default` hook can diverge
for adversarial codecs, so the recursive encoders and decoders take an
explicit fuel argument; running out of fuel is a distinguished error that
never occurs at sufficient fuel.
-/

set_option autoImplicit false

namespace JsonSer

/-- A Python runtime type, as the engine observes it: `__name__` and the
`fullname` helper's result (`module + '.' + name`, or bare `__name__` for
builtins). -/
structure RTType where
  shortName : String
  fullName : String
deriving DecidableEq, Repr

/-- Python values reachable by the engine: JSON scalars, lists, dicts
(ordered key/value association lists, as CPython dicts are), instances of
user classes carrying a `__dict__` (`objV`), and `datetime` instances
(`dtV`, opaque, no `__dict__`). -/
inductive JVal where
  | null : JVal
  | boolV : Bool → JVal
  | intV : Int → JVal
  | strV : String → JVal
  | listV : List JVal → JVal
  | dictV : List (String × JVal) → JVal
  | objV : RTType → List (String × JVal) → JVal
  | dtV : String → JVal

/-- Failures of the engine: the two `TypeError`s raised by
`serialize_object`, the `KeyError`s raised by dict/registry subscripting
in `deserialize_dict`, the `TypeError` from hashing an unhashable
discriminator value, the bare `raise` in `Deserializer.__init__`, and the
fuel-exhaustion artifact of the embedding. -/
inductive Err where
  | typeNotRegistered : String → Err
  | noSerializer : Err
  | keyError : String → Err
  | unhashable : Err
  | duplicateRegistration : Err
  | outOfFuel : Err
deriving DecidableEq, Repr

/-- A registered encoder (`Serializer.serializers` entry): maps an object
to a raw dict, as both registered codecs in the source do. -/
def EncFn : Type := JVal → List (String × JVal)

/-- A registered decoder (`Deserializer.deserializers` entry): maps the
raw dict (discriminator already stripped) to a reconstructed value. -/
def DecFn : Type := List (String × JVal) → JVal

/-- Reconstruction metadata for one registered type
(`SerializableTypeData` plus the constructor signature the engine reads
with `inspect.signature(cls.__init__)`): the class object, its
`transient_attributes`, and the names accepted by `cls.__init__`. -/
structure TypeData where
  cls : RTType
  transient : List String
  ctorParams : List String

/-- The three process-wide registries: `Serializer.serializers` (keyed by
the runtime type object), `Deserializer.deserializers` (keyed by the
type's `__name__`), and `Serializable.serializable_types` (keyed by
`fullname(cls)`). -/
structure Env where
  serializers : List (RTType × EncFn)
  deserializers : List (String × DecFn)
  serializable_types : List (String × TypeData)

/-- First-match association-list lookup: Python `d[k]` / `k in d` on a
dict (keys are unique in a real dict, so first match is the match). -/
def lookupD {κ α : Type} [DecidableEq κ] (d : List (κ × α)) (k : κ) :
    Option α :=
  match d with
  | [] => none
  | (k', v) :: t => if k' = k then some v else lookupD t k

/-- Python dict assignment `d[k] = v` / `setattr` on a `__dict__`:
update the existing entry in place, else append (insertion order). -/
def dictSet {κ α : Type} [DecidableEq κ] (d : List (κ × α)) (k : κ)
    (v : α) : List (κ × α) :=
  match d with
  | [] => [(k, v)]
  | (k', v') :: t => if k' = k then (k, v) :: t else (k', v') :: dictSet t k v

/-- Python `del d[k]` / `delattr`: remove the (unique) entry with key `k`. -/
def eraseKey {κ α : Type} [DecidableEq κ] (d : List (κ × α)) (k : κ) :
    List (κ × α) :=
  match d with
  | [] => []
  | (k', v') :: t => if k' = k then t else (k', v') :: eraseKey t k

/-- Keys of a dict snapshot are pairwise distinct (always true of a real
Python dict / `__dict__`). -/
def nodupKeys {α : Type} : List (String × α) → Bool
  | [] => true
  | (k, _) :: t => !(t.any (fun p => p.1 = k)) && nodupKeys t

/-- `setattr(obj, k, v)` on an instance; no effect on non-instances. -/
def setAttr (o : JVal) (k : String) (v : JVal) : JVal :=
  match o with
  | .objV t f => .objV t (dictSet f k v)
  | other => other

/-- The runtime type (`type(obj)`) of a modelled value, with `__name__`
and `fullname` as the source computes them (builtins report the bare
name; `datetime` lives in module `datetime`). -/
def typeOf : JVal → RTType
  | .null => ⟨"NoneType", "NoneType"⟩
  | .boolV _ => ⟨"bool", "bool"⟩
  | .intV _ => ⟨"int", "int"⟩
  | .strV _ => ⟨"str", "str"⟩
  | .listV _ => ⟨"list", "list"⟩
  | .dictV _ => ⟨"dict", "dict"⟩
  | .objV t _ => t
  | .dtV _ => ⟨"datetime", "datetime.datetime"⟩

/-- `hasattr(obj, '__dict__')`: true exactly for instances of user
classes; builtin scalars, lists, dicts and `datetime` have no
`__dict__`. -/
def hasDict : JVal → Bool
  | .objV _ _ => true
  | _ => false

/-- The reserved discriminator key. -/
def tagKey : String := "_serialized_type"

/-- Python `key.startswith('_')` (expressed on the character list so it
evaluates by kernel reduction). -/
def startsUnderscore (k : String) : Bool :=
  k.data.head? = some '_'

/-- Python `key in names` for a list of strings. -/
def memStr (names : List String) (k : String) : Bool :=
  names.any (fun x => x = k)

/-- One removal phase of `serialize_object`: split the current
`__dict__` into kept entries and removed (`ignored_attributes`) entries,
both in iteration order, for the keys satisfying `p`. -/
def partitionRemove (p : String → Bool) (f : List (String × JVal)) :
    List (String × JVal) × List (String × JVal) :=
  (f.filter (fun kv => !(p kv.1)), f.filter (fun kv => p kv.1))

/-- `Serializable.serialize_object(obj, serialize_private_attributes)`,
one level, faithful to the source including its mutation of the live
object: returns the produced dict together with the object's state after
the call (private and transient attributes are deleted, the
discriminator attribute is set, the dict is copied, and the deleted
attributes are re-set in removal order). -/
def serialize_object (env : Env) (priv : Bool) (obj : JVal) :
    Except Err (List (String × JVal) × JVal) :=
  let ty := typeOf obj
  match lookupD env.serializers ty with
  | some enc =>
      -- codec path: value = serializers[typ](obj); value[tagKey] = typ.__name__
      .ok (dictSet (enc obj) tagKey (.strV ty.shortName), obj)
  | none =>
    match obj with
    | .objV t f =>
        -- hasattr(obj, '__dict__') holds exactly for class instances
        match lookupD env.serializable_types t.fullName with
        | none => .error (.typeNotRegistered t.fullName)
        | some td =>
          let pr := if priv then (f, [])
            else partitionRemove startsUnderscore f
          let tr := if td.transient.isEmpty then (pr.1, [])
            else partitionRemove (memStr td.transient) pr.1
          let f3 := dictSet tr.1 tagKey (.strV t.fullName)
          let objAfter :=
            (pr.2 ++ tr.2).foldl (fun acc kv => dictSet acc kv.1 kv.2) f3
          .ok (f3, .objV t objAfter)
    | _ => .error .noSerializer

/-- `serialize(obj, serialize_private_attributes)`: the `json.dumps` +
`json.loads` round through the `default=serialize_object` hook. `dumps`
emits scalars, recurses through lists and dict values, and calls
`serialize_object` on anything else, then recurses through the dict the
hook returned. Recursion through a codec's output is not structurally
bounded, hence the fuel. -/
def serialize (env : Env) (priv : Bool) : Nat → JVal → Except Err JVal
  | _, .null => .ok .null
  | _, .boolV b => .ok (.boolV b)
  | _, .intV n => .ok (.intV n)
  | _, .strV s => .ok (.strV s)
  | 0, _ => .error .outOfFuel
  | fuel + 1, .listV l =>
      .listV <$> l.mapM (fun x => serialize env priv fuel x)
  | fuel + 1, .dictV d =>
      .dictV <$> d.mapM (fun kv => do
        let s ← serialize env priv fuel kv.2
        pure (kv.1, s))
  | fuel + 1, v => do
      let p ← serialize_object env priv v
      let d ← p.1.mapM (fun kv => do
        let s ← serialize env priv fuel kv.2
        pure (kv.1, s))
      pure (.dictV d)

/-- The field-collection loop of `deserialize_dict`: iterate the mapping
in order, skipping the discriminator key and (unless
`deserialize_private_attributes`) private-named keys; recursively decode
list values and dict values that carry a discriminator; keep every other
value as-is. `rec` is the recursive `deserialize` call. -/
def collectFields (priv : Bool) (rec : JVal → Except Err JVal) :
    List (String × JVal) → Except Err (List (String × JVal))
  | [] => .ok []
  | (k, v) :: rest =>
    if k = tagKey then collectFields priv rec rest
    else if !priv && startsUnderscore k then collectFields priv rec rest
    else
      match v with
      | .listV l => do
          let dv ← rec (.listV l)
          let tail ← collectFields priv rec rest
          pure ((k, dv) :: tail)
      | .dictV d =>
          if (lookupD d tagKey).isSome then do
            let dv ← rec (.dictV d)
            let tail ← collectFields priv rec rest
            pure ((k, dv) :: tail)
          else do
            let tail ← collectFields priv rec rest
            pure ((k, .dictV d) :: tail)
      | other => do
          let tail ← collectFields priv rec rest
          pure ((k, other) :: tail)

/-- The reconstruction tail of `deserialize_dict` (no registered decoder
applied): look up `obj['_serialized_type']` (a `KeyError` when absent —
the source has no early return for untagged mappings), fetch the
descriptor, split the decoded fields by the constructor signature, call
`cls(**accepted)` and `setattr` the extras. `cls(**kwargs)` is modelled
as the conventional pattern the engine presupposes: an instance of the
class whose `__dict__` holds exactly the named arguments, in order. -/
def reconstruct (env : Env) (dd : List (String × JVal))
    (obj : List (String × JVal)) : Except Err (JVal × List (String × JVal)) :=
  match lookupD obj tagKey with
  | none => .error (.keyError tagKey)
  | some tagv =>
    match tagv with
    | .strV tn =>
      match lookupD env.serializable_types tn with
      | none => .error (.keyError tn)
      | some td =>
        let extras := dd.filter (fun kv => !(memStr td.ctorParams kv.1))
        let accepted := dd.filter (fun kv => memStr td.ctorParams kv.1)
        let inst := JVal.objV td.cls accepted
        let inst2 := extras.foldl (fun acc kv => setAttr acc kv.1 kv.2) inst
        .ok (inst2, obj)
    | .listV _ => .error .unhashable
    | .dictV _ => .error .unhashable
    | _ =>
        -- hashable but non-string discriminator: absent from the
        -- string-keyed registry, so subscripting raises KeyError
        .error (.keyError "non-string discriminator")

/-- `deserialize_dict(obj, deserialize_private_attributes)`, faithful to
the source, parameterized by the recursive `deserialize` call. Returns
the result together with the mapping's state after the call (the decoder
path deletes the discriminator, calls the decoder on the rest, and
re-inserts the discriminator, which reappends it). A non-string
discriminator value that is a list or dict is unhashable, so the
registry membership test itself raises. -/
def deserialize_dictF (env : Env) (priv : Bool)
    (rec : JVal → Except Err JVal) (obj : List (String × JVal)) :
    Except Err (JVal × List (String × JVal)) :=
  match lookupD obj tagKey with
  | some (.strV tn) =>
    match lookupD env.deserializers tn with
    | some dec =>
        .ok (dec (eraseKey obj tagKey),
          eraseKey obj tagKey ++ [(tagKey, .strV tn)])
    | none => do
        let dd ← collectFields priv rec obj
        reconstruct env dd obj
  | some (.listV _) => .error .unhashable
  | some (.dictV _) => .error .unhashable
  | _ => do
      let dd ← collectFields priv rec obj
      reconstruct env dd obj

/-- `deserialize(obj, deserialize_private_attributes)`: dispatch on the
runtime type — lists map the call over their elements, dicts go through
`deserialize_dict`, everything else is returned unchanged. Fueled like
`serialize` (a registered decoder's output is returned without further
recursion, but nesting depth itself is not structural for the
dict-in-dict loop, and one fuel discipline keeps every definition
kernel-reducible). -/
def deserialize (env : Env) (priv : Bool) : Nat → JVal → Except Err JVal
  | 0, .listV _ => .error .outOfFuel
  | 0, .dictV _ => .error .outOfFuel
  | fuel + 1, .listV l =>
      .listV <$> l.mapM (fun x => deserialize env priv fuel x)
  | fuel + 1, .dictV d =>
      Prod.fst <$>
        deserialize_dictF env priv (fun x => deserialize env priv fuel x) d
  | _, v => .ok v

/-- `deserialize_dict` as a standalone entry point at a given fuel. -/
def deserialize_dict (env : Env) (priv : Bool) (fuel : Nat)
    (obj : List (String × JVal)) : Except Err (JVal × List (String × JVal)) :=
  deserialize_dictF env priv (fun x => deserialize env priv fuel x) obj

/-- `deserialize_list` as a standalone entry point at a given fuel. -/
def deserialize_list (env : Env) (priv : Bool) (fuel : Nat)
    (l : List JVal) : Except Err (List JVal) :=
  l.mapM (fun x => deserialize env priv fuel x)

/-- `Serializer.__init__`: registers the encoder under the type,
silently overwriting any prior entry. -/
def serializerInit (reg : List (RTType × EncFn)) (ty : RTType)
    (fn : EncFn) : List (RTType × EncFn) :=
  dictSet reg ty fn

/-- `Deserializer.__init__`: raises (a bare `raise`) when a decoder is
already registered under the type's `__name__`, else appends the
entry. -/
def deserializerInit (reg : List (String × DecFn)) (tyName : String)
    (fn : DecFn) : Except Err (List (String × DecFn)) :=
  if (lookupD reg tyName).isSome then .error .duplicateRegistration
  else .ok (reg ++ [(tyName, fn)])

/-- Values that are pure JSON data (no class instances, no opaque codec
values anywhere): `serialize` is the identity on them and `deserialize`
keeps them untouched when they sit inside a tagged mapping's fields.
Fueled by nesting depth. -/
def pureJson : Nat → JVal → Bool
  | _, .null => true
  | _, .boolV _ => true
  | _, .intV _ => true
  | _, .strV _ => true
  | 0, _ => false
  | n + 1, .listV l => l.all (fun x => pureJson n x)
  | n + 1, .dictV d => d.all (fun kv => pureJson n kv.2)
  | _, .objV _ _ => false
  | _, .dtV _ => false

/-- The constructor-accepted fields of an instance precede the extra
(post-construction) fields in its `__dict__` — the order the engine
itself produces when it reconstructs an instance. -/
def paramsFirst (ps : List String) : List (String × JVal) → Bool
  | [] => true
  | (k, _) :: t =>
    if memStr ps k then paramsFirst ps t
    else t.all (fun kv => !(memStr ps kv.1))

/-- An acyclic instance built only from allowed fields, the hypothesis of
the round-trip property: every reachable class instance is registered
(under its own class), carries no codec and no decoder registration, and
its `__dict__` has pairwise-distinct, non-private, non-transient field
names with constructor-accepted fields first; field values are scalars,
nested good instances, sequences of good non-mapping values, or (directly
under an instance, where the decode loop keeps them verbatim) untagged
pure-JSON mappings. `inList` distinguishes sequence elements, where an
untagged mapping would crash the decoder instead of being kept. -/
def goodVal (env : Env) : Nat → Bool → JVal → Bool
  | _, _, .null => true
  | _, _, .boolV _ => true
  | _, _, .intV _ => true
  | _, _, .strV _ => true
  | 0, _, _ => false
  | n + 1, _, .listV l => l.all (fun x => goodVal env n true x)
  | n + 1, inList, .dictV d =>
      !inList && (lookupD d tagKey).isNone &&
        d.all (fun kv => pureJson n kv.2)
  | n + 1, _, .objV t f =>
      match lookupD env.serializable_types t.fullName with
      | none => false
      | some td =>
        (lookupD env.serializers t).isNone &&
        (lookupD env.deserializers t.fullName).isNone &&
        decide (td.cls = t) &&
        nodupKeys f &&
        paramsFirst td.ctorParams f &&
        f.all (fun kv => !(startsUnderscore kv.1)) &&
        f.all (fun kv => !(memStr td.transient kv.1)) &&
        f.all (fun kv => goodVal env n false kv.2)
  | _, _, .dtV _ => false

/-! ### Association-list lemmas -/

theorem lookupD_append {κ α : Type} [DecidableEq κ]
    (l₁ l₂ : List (κ × α)) (k : κ) :
    lookupD (l₁ ++ l₂) k = ((lookupD l₁ k).orElse (fun _ => lookupD l₂ k)) := by
  induction l₁ with
  | nil => simp [lookupD]
  | cons p t ih =>
      obtain ⟨k', v⟩ := p
      by_cases h : k' = k <;> simp [lookupD, h, ih]

theorem lookupD_eq_none {κ α : Type} [DecidableEq κ]
    (l : List (κ × α)) (k : κ) (h : ∀ p ∈ l, p.1 ≠ k) :
    lookupD l k = none := by
  induction l with
  | nil => rfl
  | cons p t ih =>
      obtain ⟨k', v⟩ := p
      have hk : k' ≠ k := h (k', v) (List.mem_cons_self _ _)
      simp only [lookupD, if_neg hk]
      exact ih (fun q hq => h q (List.mem_cons_of_mem _ hq))

theorem dictSet_append_of_absent {κ α : Type} [DecidableEq κ]
    (d : List (κ × α)) (k : κ) (v : α) (h : lookupD d k = none) :
    dictSet d k v = d ++ [(k, v)] := by
  induction d with
  | nil => rfl
  | cons p t ih =>
      obtain ⟨k', v'⟩ := p
      simp only [lookupD] at h
      by_cases hk : k' = k
      · simp [hk] at h
      · simp only [dictSet, if_neg hk, List.cons_append, List.cons.injEq,
          true_and]
        exact ih (by simpa [hk] using h)

theorem lookupD_dictSet_ne {κ α : Type} [DecidableEq κ]
    (d : List (κ × α)) (k k' : κ) (v : α) (h : k' ≠ k) :
    lookupD (dictSet d k v) k' = lookupD d k' := by
  induction d with
  | nil => simp only [dictSet, lookupD, if_neg (Ne.symm h)]
  | cons p t ih =>
      obtain ⟨k₀, v₀⟩ := p
      by_cases hk : k₀ = k
      · subst hk
        simp only [dictSet, if_pos rfl, lookupD, if_neg (Ne.symm h)]
      · simp only [dictSet, if_neg hk, lookupD, ih]

theorem lookupD_filter {α : Type} (q : String → Bool)
    (l : List (String × α)) (k : String) :
    lookupD (l.filter (fun kv => q kv.1)) k =
      if q k then lookupD l k else none := by
  induction l with
  | nil => simp [lookupD]
  | cons p t ih =>
      obtain ⟨k', v⟩ := p
      by_cases hk : k' = k
      · subst hk
        by_cases hq : q k' <;> simp [lookupD, hq, ih]
      · by_cases hq : q k' <;> simp [lookupD, hq, hk, ih]

theorem lookupD_eraseKey_ne {κ α : Type} [DecidableEq κ]
    (d : List (κ × α)) (k k' : κ) (h : k' ≠ k) :
    lookupD (eraseKey d k) k' = lookupD d k' := by
  induction d with
  | nil => rfl
  | cons p t ih =>
      obtain ⟨k₀, v₀⟩ := p
      by_cases hk : k₀ = k
      · subst hk
        simp [eraseKey, lookupD, if_neg (Ne.symm h)]
      · simp only [eraseKey, if_neg hk, lookupD, ih]

theorem lookupD_eraseKey_self {α : Type}
    (d : List (String × α)) (k : String) (h : nodupKeys d = true) :
    lookupD (eraseKey d k) k = none := by
  induction d with
  | nil => rfl
  | cons p t ih =>
      obtain ⟨k₀, v₀⟩ := p
      simp only [nodupKeys, Bool.and_eq_true, Bool.not_eq_true'] at h
      by_cases hk : k₀ = k
      · subst hk
        simp only [eraseKey, if_pos rfl]
        apply lookupD_eq_none
        intro q hq hqk
        have : t.any (fun p => p.1 = k₀) = true :=
          List.any_eq_true.mpr ⟨q, hq, by simp [hqk]⟩
        rw [h.1] at this
        exact Bool.false_ne_true this
      · simp only [eraseKey, if_neg hk, lookupD, if_neg hk]
        exact ih h.2

theorem nodupKeys_filter {α : Type} (q : String × α → Bool)
    (l : List (String × α)) (h : nodupKeys l = true) :
    nodupKeys (l.filter q) = true := by
  induction l with
  | nil => rfl
  | cons p t ih =>
      obtain ⟨k, v⟩ := p
      simp only [nodupKeys, Bool.and_eq_true, Bool.not_eq_true'] at h
      by_cases hq : q (k, v)
      · simp only [List.filter, hq, nodupKeys, Bool.and_eq_true,
          Bool.not_eq_true']
        refine ⟨?_, ih h.2⟩
        by_contra hc
        simp only [Bool.not_eq_false, List.any_eq_true] at hc
        obtain ⟨x, hx, hxk⟩ := hc
        have hxt : x ∈ t := List.mem_of_mem_filter hx
        have : t.any (fun p => p.1 = k) = true :=
          List.any_eq_true.mpr ⟨x, hxt, hxk⟩
        rw [h.1] at this
        exact Bool.false_ne_true this
      · simp only [List.filter, Bool.not_eq_true] at hq ⊢
        rw [hq]
        exact ih h.2

theorem foldl_dictSet_append {α : Type} :
    ∀ (l₂ l₁ : List (String × α)),
    (∀ p ∈ l₂, lookupD l₁ p.1 = none) → nodupKeys l₂ = true →
    l₂.foldl (fun acc kv => dictSet acc kv.1 kv.2) l₁ = l₁ ++ l₂ := by
  intro l₂
  induction l₂ with
  | nil => intro l₁ _ _; simp
  | cons p t ih =>
      intro l₁ habs hnd
      obtain ⟨k, v⟩ := p
      simp only [nodupKeys, Bool.and_eq_true, Bool.not_eq_true'] at hnd
      have h1 : lookupD l₁ k = none := habs (k, v) (List.mem_cons_self _ _)
      simp only [List.foldl_cons]
      rw [dictSet_append_of_absent l₁ k v h1]
      have habs' : ∀ q ∈ t, lookupD (l₁ ++ [(k, v)]) q.1 = none := by
        intro q hq
        rw [lookupD_append]
        have hq1 : lookupD l₁ q.1 = none := habs q (List.mem_cons_of_mem _ hq)
        have hq2 : q.1 ≠ k := by
          intro hqk
          have : t.any (fun p => p.1 = k) = true :=
            List.any_eq_true.mpr ⟨q, hq, by simp [hqk]⟩
          rw [hnd.1] at this
          exact Bool.false_ne_true this
        simp [hq1, lookupD, Ne.symm hq2]
      rw [ih (l₁ ++ [(k, v)]) habs' hnd.2]
      simp

theorem foldl_setAttr_objV (t : RTType) :
    ∀ (l : List (String × JVal)) (a : List (String × JVal)),
    l.foldl (fun acc kv => setAttr acc kv.1 kv.2) (.objV t a) =
      .objV t (l.foldl (fun acc kv => dictSet acc kv.1 kv.2) a) := by
  intro l
  induction l with
  | nil => intro a; rfl
  | cons p tl ih =>
      intro a
      rw [List.foldl_cons, List.foldl_cons]
      show List.foldl (fun acc kv => setAttr acc kv.1 kv.2)
        (.objV t (dictSet a p.1 p.2)) tl = _
      exact ih (dictSet a p.1 p.2)

theorem filter_split_of_paramsFirst (ps : List String) :
    ∀ f : List (String × JVal), paramsFirst ps f = true →
    f.filter (fun kv => memStr ps kv.1) ++
      f.filter (fun kv => !(memStr ps kv.1)) = f := by
  intro f
  induction f with
  | nil => intro _; rfl
  | cons p t ih =>
      intro h
      obtain ⟨k, v⟩ := p
      by_cases hm : memStr ps k
      · simp only [paramsFirst, if_pos hm] at h
        simp only [List.filter, hm, Bool.not_true, List.cons_append]
        rw [ih h]
      · simp only [paramsFirst, if_neg hm] at h
        have hm' : memStr ps k = false := Bool.not_eq_true _ ▸ by
          simpa using hm
        have hall : ∀ q ∈ t, (fun kv => !(memStr ps kv.1)) q = true := by
          intro q hq
          have := List.all_eq_true.mp h q hq
          simpa using this
        have h1 : t.filter (fun kv => memStr ps kv.1) = [] := by
          apply List.filter_eq_nil_iff.mpr
          intro q hq
          have := hall q hq
          simp only [Bool.not_eq_true'] at this
          simp [this]
        have h2 : t.filter (fun kv => !(memStr ps kv.1)) = t :=
          List.filter_eq_self.mpr hall
        simp only [List.filter, hm', Bool.not_false, h1, h2, List.nil_append]

theorem mapM_ok_of_forall₂ {α β : Type} (g : α → Except Err β) :
    ∀ {l : List α} {l' : List β},
    List.Forall₂ (fun a b => g a = .ok b) l l' → l.mapM g = .ok l' := by
  intro l l' h
  induction h with
  | nil => rfl
  | cons hab _ ih =>
      rw [List.mapM_cons, hab, ih]
      rfl

theorem mapM_ok_exists {α β : Type} (g : α → Except Err β) :
    ∀ (l : List α), (∀ a ∈ l, ∃ b, g a = .ok b) →
    ∃ l', List.Forall₂ (fun a b => g a = .ok b) l l' := by
  intro l
  induction l with
  | nil => intro _; exact ⟨[], List.Forall₂.nil⟩
  | cons a t ih =>
      intro h
      obtain ⟨b, hb⟩ := h a (List.mem_cons_self _ _)
      obtain ⟨l', hl'⟩ := ih (fun x hx => h x (List.mem_cons_of_mem _ hx))
      exact ⟨b :: l', List.Forall₂.cons hb hl'⟩

/-- On pure JSON data, `serialize` is the identity (at any private flag). -/
theorem serialize_pureJson (env : Env) (priv : Bool) :
    ∀ (n : Nat) (v : JVal), pureJson n v = true →
    serialize env priv n v = .ok v := by
  intro n
  induction n with
  | zero =>
      intro v h
      cases v <;> first | rfl | (simp [pureJson] at h)
  | succ n ih =>
      intro v h
      cases v with
      | null => rfl
      | boolV b => rfl
      | intV i => rfl
      | strV s => rfl
      | listV l =>
          simp only [pureJson, List.all_eq_true] at h
          have : List.Forall₂ (fun a b => serialize env priv n a = .ok b) l l := by
            induction l with
            | nil => exact List.Forall₂.nil
            | cons a t ihl =>
                exact List.Forall₂.cons
                  (ih a (h a (List.mem_cons_self _ _)))
                  (ihl (fun x hx => h x (List.mem_cons_of_mem _ hx)))
          simp only [serialize]
          rw [mapM_ok_of_forall₂ _ this]
          rfl
      | dictV d =>
          simp only [pureJson, List.all_eq_true] at h
          have : List.Forall₂
              (fun kv kv' => (do
                let s ← serialize env priv n kv.2
                pure (kv.1, s) : Except Err (String × JVal)) = .ok kv') d d := by
            induction d with
            | nil => exact List.Forall₂.nil
            | cons a t ihl =>
                refine List.Forall₂.cons ?_
                  (ihl (fun x hx => h x (List.mem_cons_of_mem _ hx)))
                rw [ih a.2 (h a (List.mem_cons_self _ _))]
                rfl
          simp only [serialize]
          rw [mapM_ok_of_forall₂ _ this]
          rfl
      | objV t f => simp [pureJson] at h
      | dtV s => simp [pureJson] at h

/-- Values the field-collection loop of `deserialize_dict` keeps without
recursing: everything except lists and discriminator-tagged dicts. -/
def keptVerbatim : JVal → Bool
  | .listV _ => false
  | .dictV d => (lookupD d tagKey).isNone
  | _ => true

/-- Relation between a source field `kv` and its serialized form `kv'`
that lets the collection loop recover `kv` exactly. -/
def EntryOK (rec : JVal → Except Err JVal) (kv kv' : String × JVal) : Prop :=
  kv'.1 = kv.1 ∧ startsUnderscore kv.1 = false ∧
    ((keptVerbatim kv'.2 = true ∧ kv'.2 = kv.2) ∨
     (keptVerbatim kv'.2 = false ∧ rec kv'.2 = .ok kv.2))

theorem startsUnderscore_tagKey : startsUnderscore tagKey = true := rfl

theorem collectFields_tagged (rec : JVal → Except Err JVal) (s : String) :
    ∀ {f d : List (String × JVal)},
    List.Forall₂ (EntryOK rec) f d →
    collectFields false rec (d ++ [(tagKey, .strV s)]) = .ok f := by
  intro f d h
  induction h with
  | nil => rfl
  | @cons kv kv' frest drest hab hrest ih =>
      obtain ⟨k, v⟩ := kv
      obtain ⟨k', v'⟩ := kv'
      obtain ⟨hk, hu, hbranch⟩ := hab
      simp only at hk hu hbranch
      subst hk
      have hne : k' ≠ tagKey := by
        intro hkk
        rw [hkk, startsUnderscore_tagKey] at hu
        exact Bool.noConfusion hu
      have hcond : ¬((!false && startsUnderscore k') = true) := by
        simp [hu]
      rcases hbranch with ⟨hkept, hvv⟩ | ⟨hkept, hrec⟩
      · subst hvv
        cases v' with
        | listV l => simp [keptVerbatim] at hkept
        | dictV d0 =>
            have h0 : lookupD d0 tagKey = none := by
              simp only [keptVerbatim, Option.isNone_iff_eq_none] at hkept
              exact hkept
            have hsome : ¬((lookupD d0 tagKey).isSome = true) := by
              simp [h0]
            simp only [List.cons_append, collectFields, if_neg hne,
              if_neg hcond, if_neg hsome, List.append_eq]
            rw [ih]
            rfl
        | null =>
            simp only [List.cons_append, collectFields, if_neg hne,
              if_neg hcond, List.append_eq]
            rw [ih]; rfl
        | boolV b =>
            simp only [List.cons_append, collectFields, if_neg hne,
              if_neg hcond, List.append_eq]
            rw [ih]; rfl
        | intV i =>
            simp only [List.cons_append, collectFields, if_neg hne,
              if_neg hcond, List.append_eq]
            rw [ih]; rfl
        | strV s' =>
            simp only [List.cons_append, collectFields, if_neg hne,
              if_neg hcond, List.append_eq]
            rw [ih]; rfl
        | objV t0 f0 =>
            simp only [List.cons_append, collectFields, if_neg hne,
              if_neg hcond, List.append_eq]
            rw [ih]; rfl
        | dtV s' =>
            simp only [List.cons_append, collectFields, if_neg hne,
              if_neg hcond, List.append_eq]
            rw [ih]; rfl
      · cases v' with
        | listV l =>
            simp only [List.cons_append, collectFields, if_neg hne,
              if_neg hcond, List.append_eq]
            rw [hrec, ih]
            rfl
        | dictV d0 =>
            have hsome : (lookupD d0 tagKey).isSome = true := by
              simp only [keptVerbatim] at hkept
              cases h0 : lookupD d0 tagKey with
              | none => rw [h0] at hkept; simp at hkept
              | some x => simp
            simp only [List.cons_append, collectFields, if_neg hne,
              if_neg hcond, if_pos hsome, List.append_eq]
            rw [hrec, ih]
            rfl
        | null => simp [keptVerbatim] at hkept
        | boolV b => simp [keptVerbatim] at hkept
        | intV i => simp [keptVerbatim] at hkept
        | strV s' => simp [keptVerbatim] at hkept
        | objV t0 f0 => simp [keptVerbatim] at hkept
        | dtV s' => simp [keptVerbatim] at hkept

/-- On an instance whose fields are all public and non-transient,
`serialize_object` (without private serialization) returns the fields
followed by the appended discriminator, and leaves the object mutated
into exactly that dict. -/
theorem serialize_object_good (env : Env) (t : RTType)
    (f : List (String × JVal)) (td : TypeData)
    (h1 : lookupD env.serializers t = none)
    (h2 : lookupD env.serializable_types t.fullName = some td)
    (hp : ∀ kv ∈ f, startsUnderscore kv.1 = false)
    (ht : ∀ kv ∈ f, memStr td.transient kv.1 = false) :
    serialize_object env false (.objV t f) =
      .ok (f ++ [(tagKey, .strV t.fullName)],
        .objV t (f ++ [(tagKey, .strV t.fullName)])) := by
  have e1 : f.filter (fun kv => !(startsUnderscore kv.1)) = f :=
    List.filter_eq_self.mpr (fun a ha => by simp [hp a ha])
  have e2 : f.filter (fun kv => startsUnderscore kv.1) = [] :=
    List.filter_eq_nil_iff.mpr (fun a ha => by simp [hp a ha])
  have e3 : f.filter (fun kv => !(memStr td.transient kv.1)) = f :=
    List.filter_eq_self.mpr (fun a ha => by simp [ht a ha])
  have e4 : f.filter (fun kv => memStr td.transient kv.1) = [] :=
    List.filter_eq_nil_iff.mpr (fun a ha => by simp [ht a ha])
  have htagf : lookupD f tagKey = none := by
    apply lookupD_eq_none
    intro p hp' he
    have := hp p hp'
    rw [he, startsUnderscore_tagKey] at this
    exact Bool.noConfusion this
  have hset := dictSet_append_of_absent f tagKey (.strV t.fullName) htagf
  by_cases hemp : td.transient.isEmpty
  · simp only [serialize_object, typeOf, h1, h2, Bool.false_eq_true,
      if_false, partitionRemove, e1, e2, hemp, if_true, List.append_nil,
      List.nil_append, List.foldl_nil, hset]
  · simp only [serialize_object, typeOf, h1, h2, Bool.false_eq_true,
      if_false, partitionRemove, e1, e2, e3, e4, hemp, List.append_nil,
      List.nil_append, List.foldl_nil, hset]

/-- When the decoded field dict has distinct keys with
constructor-accepted fields first, the reconstruction tail rebuilds the
instance with exactly those fields, in order. -/
theorem reconstruct_good (env : Env) (t : RTType) (td : TypeData)
    (f obj : List (String × JVal))
    (h2 : lookupD env.serializable_types t.fullName = some td)
    (hcls : td.cls = t)
    (hnd : nodupKeys f = true)
    (hpf : paramsFirst td.ctorParams f = true)
    (htag : lookupD obj tagKey = some (.strV t.fullName)) :
    reconstruct env f obj = .ok (.objV t f, obj) := by
  simp only [reconstruct, htag, h2]
  rw [foldl_setAttr_objV]
  have hdisj : ∀ p ∈ f.filter (fun kv => !(memStr td.ctorParams kv.1)),
      lookupD (f.filter (fun kv => memStr td.ctorParams kv.1)) p.1 = none := by
    intro p hpmem
    have hpfalse : memStr td.ctorParams p.1 = false := by
      have := List.of_mem_filter hpmem
      simpa using this
    rw [lookupD_filter]
    simp [hpfalse]
  have hndE : nodupKeys (f.filter (fun kv => !(memStr td.ctorParams kv.1)))
      = true := nodupKeys_filter _ _ hnd
  rw [foldl_dictSet_append _ _ hdisj hndE]
  rw [filter_split_of_paramsFirst _ _ hpf, hcls]

theorem exists_forall₂ {α β : Type} (r : α → β → Prop) :
    ∀ (l : List α), (∀ a ∈ l, ∃ b, r a b) →
    ∃ l', List.Forall₂ r l l' := by
  intro l
  induction l with
  | nil => intro _; exact ⟨[], List.Forall₂.nil⟩
  | cons a t ih =>
      intro h
      obtain ⟨b, hb⟩ := h a (List.mem_cons_self _ _)
      obtain ⟨l', hl'⟩ := ih (fun x hx => h x (List.mem_cons_of_mem _ hx))
      exact ⟨b :: l', List.Forall₂.cons hb hl'⟩

theorem entryOK_keys (rec : JVal → Except Err JVal) :
    ∀ {f fs : List (String × JVal)}, List.Forall₂ (EntryOK rec) f fs →
    ∀ p ∈ fs, startsUnderscore p.1 = false := by
  intro f fs h
  induction h with
  | nil => intro p hp; exact absurd hp (List.not_mem_nil p)
  | cons hab _ ih =>
      intro p hp
      rcases List.mem_cons.mp hp with he | hm
      · subst he
        rw [hab.1]
        exact hab.2.1
      · exact ih p hm

/-- Conclusion of the round-trip induction, by value shape: instances
serialize to a tagged dict that decodes back to the same instance,
sequences serialize to a sequence that decodes back, scalars and pure
untagged mappings serialize to themselves. -/
def RTConc (env : Env) (n : Nat) (v : JVal) : Prop :=
  match v with
  | .objV _ _ => ∃ d, serialize env false n v = .ok (.dictV d) ∧
      (lookupD d tagKey).isSome = true ∧
      deserialize env false (n + 1) (.dictV d) = .ok v
  | .listV _ => ∃ l', serialize env false n v = .ok (.listV l') ∧
      deserialize env false (n + 1) (.listV l') = .ok v
  | .dtV _ => True
  | _ => serialize env false n v = .ok v

theorem except_bind_ok {α β : Type} (a : α) (g : α → Except Err β) :
    (Except.ok a >>= g : Except Err β) = g a := rfl

/-- The per-entry step of `serialize`'s traversal of a produced dict. -/
def serEntry (env : Env) (priv : Bool) (n : Nat) (kv : String × JVal) :
    Except Err (String × JVal) := do
  let s' ← serialize env priv n kv.2
  pure (kv.1, s')

theorem goodVal_dict_inList (env : Env) (n : Nat)
    (d : List (String × JVal)) : goodVal env n true (.dictV d) = false := by
  cases n <;> simp [goodVal]

theorem goodVal_dtV (env : Env) (n : Nat) (b : Bool) (s : String) :
    goodVal env n b (.dtV s) = false := by
  cases n <;> rfl

theorem roundTripAux (env : Env) :
    ∀ (n : Nat) (b : Bool) (v : JVal),
    goodVal env n b v = true → RTConc env n v := by
  intro n
  induction n with
  | zero =>
      intro b v h
      cases v with
      | null => exact rfl
      | boolV b0 => exact rfl
      | intV i => exact rfl
      | strV s => exact rfl
      | listV l => simp [goodVal] at h
      | dictV d => simp [goodVal] at h
      | objV t f => simp [goodVal] at h
      | dtV s => exact trivial
  | succ n ih =>
      intro b v h
      cases v with
      | null => exact rfl
      | boolV b0 => exact rfl
      | intV i => exact rfl
      | strV s => exact rfl
      | dtV s => exact trivial
      | dictV d =>
          simp only [goodVal, Bool.and_eq_true] at h
          exact serialize_pureJson env false (n + 1) (.dictV d)
            (by simp only [pureJson]; exact h.2)
      | listV l =>
          simp only [goodVal, List.all_eq_true] at h
          have hall : ∀ e ∈ l, ∃ s, serialize env false n e = .ok s ∧
              deserialize env false (n + 1) s = .ok e := by
            intro e he
            have hge := h e he
            have hc := ih true e hge
            cases e with
            | objV t0 f0 =>
                obtain ⟨d0, h1, _, h3⟩ := hc
                exact ⟨_, h1, h3⟩
            | listV l0 =>
                obtain ⟨l0', h1, h3⟩ := hc
                exact ⟨_, h1, h3⟩
            | dictV d0 =>
                rw [goodVal_dict_inList] at hge
                exact Bool.noConfusion hge
            | dtV s0 =>
                rw [goodVal_dtV] at hge
                exact Bool.noConfusion hge
            | null => exact ⟨_, hc, rfl⟩
            | boolV b0 => exact ⟨_, hc, rfl⟩
            | intV i0 => exact ⟨_, hc, rfl⟩
            | strV s0 => exact ⟨_, hc, rfl⟩
          obtain ⟨l', hl'⟩ := exists_forall₂
            (fun e s => serialize env false n e = .ok s ∧
              deserialize env false (n + 1) s = .ok e) l hall
          have hser : l.mapM (fun x => serialize env false n x) = .ok l' :=
            mapM_ok_of_forall₂ _ (hl'.imp (fun _ _ hp => hp.1))
          have hdes : l'.mapM (fun x => deserialize env false (n + 1) x)
              = .ok l := by
            apply mapM_ok_of_forall₂
            apply List.Forall₂.flip
            exact hl'.imp (fun _ _ hp => hp.2)
          refine ⟨l', ?_, ?_⟩
          · show (JVal.listV <$> l.mapM (fun x => serialize env false n x) :
                Except Err JVal) = Except.ok (JVal.listV l')
            rw [hser]
            rfl
          · show (JVal.listV <$>
                l'.mapM (fun x => deserialize env false (n + 1) x) :
                Except Err JVal) = Except.ok (JVal.listV l)
            rw [hdes]
            rfl
      | objV t f =>
          simp only [goodVal] at h
          rcases hmatch : lookupD env.serializable_types t.fullName with
            _ | td
          · rw [hmatch] at h
            exact Bool.noConfusion h
          rw [hmatch] at h
          simp only [Bool.and_eq_true] at h
          obtain ⟨⟨⟨⟨⟨⟨⟨hserN, hdesN⟩, hclsb⟩, hnd⟩, hpf⟩, hpub⟩,
            htrans⟩, hfields⟩ := h
          have hser0 : lookupD env.serializers t = none :=
            Option.isNone_iff_eq_none.mp hserN
          have hdes0 : lookupD env.deserializers t.fullName = none :=
            Option.isNone_iff_eq_none.mp hdesN
          have hcls : td.cls = t := of_decide_eq_true hclsb
          rw [List.all_eq_true] at hpub htrans hfields
          have hso := serialize_object_good env t f td hser0 hmatch
            (fun kv hkv => by simpa using hpub kv hkv)
            (fun kv hkv => by simpa using htrans kv hkv)
          -- per-field facts
          have hfield : ∀ kv ∈ f, ∃ kvs : String × JVal,
              serEntry env false n kv = .ok kvs ∧
              EntryOK (fun x => deserialize env false (n + 1) x) kv kvs := by
            intro kv hkv
            have hg : goodVal env n false kv.2 = true := by
              simpa using hfields kv hkv
            have hu : startsUnderscore kv.1 = false := by
              simpa using hpub kv hkv
            have hc := ih false kv.2 hg
            obtain ⟨k0, v0⟩ := kv
            simp only at hg hu hc ⊢
            cases v0 with
            | objV t0 f0 =>
                obtain ⟨d0, h1, h2s, h3⟩ := hc
                refine ⟨(k0, .dictV d0),
                  by rw [serEntry]; rw [h1]; rfl, rfl, hu, Or.inr ?_⟩
                refine ⟨?_, h3⟩
                simp only [keptVerbatim]
                cases h0 : lookupD d0 tagKey with
                | none => rw [h0] at h2s; simp at h2s
                | some x => simp
            | listV l0 =>
                obtain ⟨l0', h1, h3⟩ := hc
                exact ⟨(k0, .listV l0'),
                  by rw [serEntry]; rw [h1]; rfl, rfl, hu, Or.inr ⟨rfl, h3⟩⟩
            | dictV d0 =>
                have huntag : (lookupD d0 tagKey).isNone = true := by
                  cases n with
                  | zero => simp [goodVal] at hg
                  | succ m =>
                      simp only [goodVal, Bool.and_eq_true] at hg
                      exact hg.1.2
                exact ⟨(k0, .dictV d0),
                  by rw [serEntry]; rw [hc]; rfl, rfl, hu,
                  Or.inl ⟨huntag, rfl⟩⟩
            | dtV s0 =>
                rw [goodVal_dtV] at hg
                exact Bool.noConfusion hg
            | null => exact ⟨(k0, .null),
                by rw [serEntry]; rw [hc]; rfl, rfl, hu, Or.inl ⟨rfl, rfl⟩⟩
            | boolV b0 => exact ⟨(k0, .boolV b0),
                by rw [serEntry]; rw [hc]; rfl, rfl, hu, Or.inl ⟨rfl, rfl⟩⟩
            | intV i0 => exact ⟨(k0, .intV i0),
                by rw [serEntry]; rw [hc]; rfl, rfl, hu, Or.inl ⟨rfl, rfl⟩⟩
            | strV s0 => exact ⟨(k0, .strV s0),
                by rw [serEntry]; rw [hc]; rfl, rfl, hu, Or.inl ⟨rfl, rfl⟩⟩
          obtain ⟨fs, hfs⟩ := exists_forall₂ _ f hfield
          have hEOK : List.Forall₂
              (EntryOK (fun x => deserialize env false (n + 1) x)) f fs :=
            hfs.imp (fun _ _ hp => hp.2)
          have hmap : (f ++ [(tagKey, JVal.strV t.fullName)]).mapM
              (serEntry env false n)
              = .ok (fs ++ [(tagKey, JVal.strV t.fullName)]) := by
            apply mapM_ok_of_forall₂
            apply List.rel_append
            · exact hfs.imp (fun _ _ hp => hp.1)
            · refine List.Forall₂.cons ?_ List.Forall₂.nil
              show serEntry env false n (tagKey, JVal.strV t.fullName)
                = .ok (tagKey, JVal.strV t.fullName)
              cases n <;> rfl
          have hfs_keys : lookupD fs tagKey = none := by
            apply lookupD_eq_none
            intro p hp he
            have := entryOK_keys _ hEOK p hp
            rw [he, startsUnderscore_tagKey] at this
            exact Bool.noConfusion this
          have hdtag : lookupD (fs ++ [(tagKey, JVal.strV t.fullName)])
              tagKey = some (.strV t.fullName) := by
            rw [lookupD_append, hfs_keys]
            rfl
          refine ⟨fs ++ [(tagKey, JVal.strV t.fullName)], ?_, ?_, ?_⟩
          · show (serialize_object env false (.objV t f) >>= fun p =>
                p.1.mapM (serEntry env false n) >>= fun d' =>
                  (pure (JVal.dictV d') : Except Err JVal))
              = Except.ok (JVal.dictV (fs ++ [(tagKey, JVal.strV t.fullName)]))
            rw [hso, except_bind_ok]
            show ((f ++ [(tagKey, JVal.strV t.fullName)]).mapM
                (serEntry env false n)) >>= (fun d' =>
                  (pure (JVal.dictV d') : Except Err JVal))
              = Except.ok (JVal.dictV (fs ++ [(tagKey, JVal.strV t.fullName)]))
            rw [hmap, except_bind_ok]
            rfl
          · rw [hdtag]; rfl
          · show (Prod.fst <$> deserialize_dictF env false
                (fun x => deserialize env false (n + 1) x)
                (fs ++ [(tagKey, JVal.strV t.fullName)]) : Except Err JVal)
              = Except.ok (JVal.objV t f)
            have e3 : deserialize_dictF env false
                (fun x => deserialize env false (n + 1) x)
                (fs ++ [(tagKey, JVal.strV t.fullName)])
                = .ok (.objV t f, fs ++ [(tagKey, JVal.strV t.fullName)]) := by
              simp only [deserialize_dictF, hdtag, hdes0]
              rw [collectFields_tagged _ t.fullName hEOK, except_bind_ok]
              exact reconstruct_good env t td f _ hmatch hcls hnd hpf hdtag
            rw [e3]
            rfl

theorem lookupD_dictSet_self {κ α : Type} [DecidableEq κ]
    (d : List (κ × α)) (k : κ) (v : α) :
    lookupD (dictSet d k v) k = some v := by
  induction d with
  | nil => simp [dictSet, lookupD]
  | cons p t ih =>
      obtain ⟨k₀, v₀⟩ := p
      by_cases hk : k₀ = k
      · simp [dictSet, hk, lookupD]
      · simp only [dictSet, if_neg hk, lookupD, if_neg hk, ih]

theorem mem_keys_dictSet {κ α : Type} [DecidableEq κ]
    (d : List (κ × α)) (k k' : κ) (v : α)
    (h : k' ∈ (dictSet d k v).map Prod.fst) :
    k' ∈ d.map Prod.fst ∨ k' = k := by
  induction d with
  | nil =>
      simp only [dictSet, List.map_cons, List.map_nil,
        List.mem_singleton] at h
      exact Or.inr h
  | cons p t ih =>
      obtain ⟨k₀, v₀⟩ := p
      by_cases hk : k₀ = k
      · simp only [dictSet, if_pos hk, List.map_cons, List.mem_cons] at h
        rcases h with h | h
        · exact Or.inr h
        · exact Or.inl (by
            simp only [List.map_cons, List.mem_cons]
            exact Or.inr h)
      · simp only [dictSet, if_neg hk, List.map_cons, List.mem_cons] at h
        rcases h with h | h
        · exact Or.inl (by
            simp only [List.map_cons, List.mem_cons]
            exact Or.inl h)
        · rcases ih h with h' | h'
          · exact Or.inl (by
              simp only [List.map_cons, List.mem_cons]
              exact Or.inr h')
          · exact Or.inr h'

theorem memStr_isEmpty_false (ps : List String) (k : String)
    (h : memStr ps k = true) : ps.isEmpty = false := by
  cases ps with
  | nil => simp [memStr] at h
  | cons a t => rfl

theorem except_bind_eq_ok {α β : Type} {a : Except Err α}
    {g : α → Except Err β} {b : β} (h : (a >>= g) = .ok b) :
    ∃ x, a = .ok x ∧ g x = .ok b := by
  cases a with
  | error e => exact Except.noConfusion h
  | ok x => exact ⟨x, rfl, h⟩

theorem collectFields_keys (priv : Bool) (rec : JVal → Except Err JVal) :
    ∀ (obj dd : List (String × JVal)),
    collectFields priv rec obj = .ok dd →
    ∀ k, k ∈ dd.map Prod.fst → k ∈ obj.map Prod.fst := by
  intro obj
  induction obj with
  | nil =>
      intro dd h k hk
      simp only [collectFields] at h
      cases h
      simp at hk
  | cons p rest ih =>
      intro dd h k hk
      obtain ⟨k0, v0⟩ := p
      have skip : collectFields priv rec rest = .ok dd →
          k ∈ ((k0, v0) :: rest).map Prod.fst := by
        intro htail
        exact List.mem_cons_of_mem _ (ih dd htail k hk)
      have step : ∀ (x : JVal) (tail : List (String × JVal)),
          collectFields priv rec rest = .ok tail →
          dd = (k0, x) :: tail → k ∈ ((k0, v0) :: rest).map Prod.fst := by
        intro x tail htail hdd
        subst hdd
        simp only [List.map_cons, List.mem_cons] at hk ⊢
        rcases hk with hk | hk
        · exact Or.inl hk
        · exact Or.inr (ih tail htail k hk)
      cases v0 with
      | listV l =>
          simp only [collectFields] at h
          split_ifs at h with h1 h2
          · exact skip h
          · exact skip h
          · obtain ⟨dv, _, h'⟩ := except_bind_eq_ok h
            obtain ⟨tail, htail, h''⟩ := except_bind_eq_ok h'
            cases h''
            exact step dv tail htail rfl
      | dictV d0 =>
          simp only [collectFields] at h
          split_ifs at h with h1 h2 h3
          · exact skip h
          · exact skip h
          · obtain ⟨dv, _, h'⟩ := except_bind_eq_ok h
            obtain ⟨tail, htail, h''⟩ := except_bind_eq_ok h'
            cases h''
            exact step dv tail htail rfl
          · obtain ⟨tail, htail, h''⟩ := except_bind_eq_ok h
            cases h''
            exact step (.dictV d0) tail htail rfl
      | null =>
          simp only [collectFields] at h
          split_ifs at h with h1 h2
          · exact skip h
          · exact skip h
          · obtain ⟨tail, htail, h''⟩ := except_bind_eq_ok h
            cases h''
            exact step .null tail htail rfl
      | boolV b0 =>
          simp only [collectFields] at h
          split_ifs at h with h1 h2
          · exact skip h
          · exact skip h
          · obtain ⟨tail, htail, h''⟩ := except_bind_eq_ok h
            cases h''
            exact step (.boolV b0) tail htail rfl
      | intV i0 =>
          simp only [collectFields] at h
          split_ifs at h with h1 h2
          · exact skip h
          · exact skip h
          · obtain ⟨tail, htail, h''⟩ := except_bind_eq_ok h
            cases h''
            exact step (.intV i0) tail htail rfl
      | strV s0 =>
          simp only [collectFields] at h
          split_ifs at h with h1 h2
          · exact skip h
          · exact skip h
          · obtain ⟨tail, htail, h''⟩ := except_bind_eq_ok h
            cases h''
            exact step (.strV s0) tail htail rfl
      | objV t0 f0 =>
          simp only [collectFields] at h
          split_ifs at h with h1 h2
          · exact skip h
          · exact skip h
          · obtain ⟨tail, htail, h''⟩ := except_bind_eq_ok h
            cases h''
            exact step (.objV t0 f0) tail htail rfl
      | dtV s0 =>
          simp only [collectFields] at h
          split_ifs at h with h1 h2
          · exact skip h
          · exact skip h
          · obtain ⟨tail, htail, h''⟩ := except_bind_eq_ok h
            cases h''
            exact step (.dtV s0) tail htail rfl

theorem collectFields_nodup (priv : Bool) (rec : JVal → Except Err JVal) :
    ∀ (obj dd : List (String × JVal)), nodupKeys obj = true →
    collectFields priv rec obj = .ok dd → nodupKeys dd = true := by
  intro obj
  induction obj with
  | nil =>
      intro dd _ h
      simp only [collectFields] at h
      cases h
      rfl
  | cons p rest ih =>
      intro dd hnd h
      obtain ⟨k0, v0⟩ := p
      simp only [nodupKeys, Bool.and_eq_true, Bool.not_eq_true'] at hnd
      have step : ∀ (x : JVal) (tail : List (String × JVal)),
          collectFields priv rec rest = .ok tail →
          nodupKeys ((k0, x) :: tail) = true := by
        intro x tail htail
        simp only [nodupKeys, Bool.and_eq_true, Bool.not_eq_true']
        refine ⟨?_, ih tail hnd.2 htail⟩
        by_contra hc
        simp only [Bool.not_eq_false, List.any_eq_true,
          decide_eq_true_eq] at hc
        obtain ⟨q, hq, hqk⟩ := hc
        have hmem : q.1 ∈ tail.map Prod.fst := List.mem_map_of_mem _ hq
        have hrest : q.1 ∈ rest.map Prod.fst :=
          collectFields_keys priv rec rest tail htail q.1 hmem
        obtain ⟨r, hr, hrk⟩ := List.mem_map.mp hrest
        have : rest.any (fun p => p.1 = k0) = true :=
          List.any_eq_true.mpr ⟨r, hr, by simp [hrk, hqk]⟩
        rw [hnd.1] at this
        exact Bool.noConfusion this
      cases v0 with
      | listV l =>
          simp only [collectFields] at h
          split_ifs at h with h1 h2
          · exact ih dd hnd.2 h
          · exact ih dd hnd.2 h
          · obtain ⟨dv, _, h'⟩ := except_bind_eq_ok h
            obtain ⟨tail, htail, h''⟩ := except_bind_eq_ok h'
            cases h''
            exact step dv tail htail
      | dictV d0 =>
          simp only [collectFields] at h
          split_ifs at h with h1 h2 h3
          · exact ih dd hnd.2 h
          · exact ih dd hnd.2 h
          · obtain ⟨dv, _, h'⟩ := except_bind_eq_ok h
            obtain ⟨tail, htail, h''⟩ := except_bind_eq_ok h'
            cases h''
            exact step dv tail htail
          · obtain ⟨tail, htail, h''⟩ := except_bind_eq_ok h
            cases h''
            exact step (.dictV d0) tail htail
      | null =>
          simp only [collectFields] at h
          split_ifs at h with h1 h2
          · exact ih dd hnd.2 h
          · exact ih dd hnd.2 h
          · obtain ⟨tail, htail, h''⟩ := except_bind_eq_ok h
            cases h''
            exact step .null tail htail
      | boolV b0 =>
          simp only [collectFields] at h
          split_ifs at h with h1 h2
          · exact ih dd hnd.2 h
          · exact ih dd hnd.2 h
          · obtain ⟨tail, htail, h''⟩ := except_bind_eq_ok h
            cases h''
            exact step (.boolV b0) tail htail
      | intV i0 =>
          simp only [collectFields] at h
          split_ifs at h with h1 h2
          · exact ih dd hnd.2 h
          · exact ih dd hnd.2 h
          · obtain ⟨tail, htail, h''⟩ := except_bind_eq_ok h
            cases h''
            exact step (.intV i0) tail htail
      | strV s0 =>
          simp only [collectFields] at h
          split_ifs at h with h1 h2
          · exact ih dd hnd.2 h
          · exact ih dd hnd.2 h
          · obtain ⟨tail, htail, h''⟩ := except_bind_eq_ok h
            cases h''
            exact step (.strV s0) tail htail
      | objV t0 f0 =>
          simp only [collectFields] at h
          split_ifs at h with h1 h2
          · exact ih dd hnd.2 h
          · exact ih dd hnd.2 h
          · obtain ⟨tail, htail, h''⟩ := except_bind_eq_ok h
            cases h''
            exact step (.objV t0 f0) tail htail
      | dtV s0 =>
          simp only [collectFields] at h
          split_ifs at h with h1 h2
          · exact ih dd hnd.2 h
          · exact ih dd hnd.2 h
          · obtain ⟨tail, htail, h''⟩ := except_bind_eq_ok h
            cases h''
            exact step (.dtV s0) tail htail

/-! ### Concrete material for witnesses and counterexamples -/

/-- Projection to an instance's or mapping's entries. -/
def fieldsOf : JVal → List (String × JVal)
  | .objV _ f => f
  | .dictV d => d
  | _ => []

/-- The `datetime` runtime type as the engine sees it. -/
def tyDatetime : RTType := ⟨"datetime", "datetime.datetime"⟩

/-- The registered `serialize_datetime` codec encoder
(`{'datetime': datetime_obj.__str__()}`; the model stores the string
form directly). -/
def serialize_datetime : EncFn := fun v =>
  match v with
  | .dtV iso => [("datetime", .strV iso)]
  | _ => []

/-- The registered `deserialize_datetime` codec decoder
(`datetime.fromisoformat(serialized_datetime['datetime'])`, modelled as
recovering the stored string form). -/
def deserialize_datetime : DecFn := fun d =>
  match lookupD d "datetime" with
  | some (.strV s) => .dtV s
  | _ => .null


/-- Registries holding both the `datetime` codec pair and a descriptor
for the same runtime type. -/
def envDtBoth : Env :=
  { serializers := [(tyDatetime, serialize_datetime)]
    deserializers := [("datetime", deserialize_datetime)]
    serializable_types := [("datetime.datetime", ⟨tyDatetime, [], []⟩)] }

/-- Registries with nothing registered. -/
def envEmpty : Env :=
  { serializers := []
    deserializers := []
    serializable_types := [] }

def tyPoint : RTType := ⟨"Point", "m.Point"⟩

/-- A single registered type `m.Point` whose constructor takes `x`. -/
def envPoint : Env :=
  { serializers := []
    deserializers := []
    serializable_types := [("m.Point", ⟨tyPoint, [], ["self", "x"]⟩)] }

def tyA : RTType := ⟨"A", "m.A"⟩

def tyB : RTType := ⟨"B", "m.B"⟩

/-- Two registered types for the nesting round-trip witness. -/
def envNested : Env :=
  { serializers := []
    deserializers := []
    serializable_types :=
      [("m.A", ⟨tyA, [], ["self", "b"]⟩),
       ("m.B", ⟨tyB, [], ["self", "y"]⟩)] }

def fA : List (String × JVal) := [("b", .objV tyB [("y", .intV 7)])]

def tyX : RTType := ⟨"X", "m.X"⟩

def tyY : RTType := ⟨"Y", "m.Y"⟩

/-- Two registered types for the round-trip counterexample: an `X`
instance holds a plain dict whose value is a `Y` instance. -/
def envWrap : Env :=
  { serializers := []
    deserializers := []
    serializable_types :=
      [("m.X", ⟨tyX, [], ["self", "d"]⟩),
       ("m.Y", ⟨tyY, [], ["self", "y"]⟩)] }

def xWrap : JVal := .objV tyX
  [("d", .dictV [("a", .objV tyY [("y", .intV 1)])])]

/-- What the engine actually returns for `xWrap`: the nested `Y` stays a
serialized tagged mapping instead of becoming a `Y` instance. -/
def rWrap : JVal := .objV tyX
  [("d", .dictV [("a", .dictV [("y", .intV 1), (tagKey, .strV "m.Y")])])]

/-- Discriminate the shape under key "a" of a mapping-valued field. -/
def probeD (o : Option JVal) : Nat :=
  match o with
  | some (.dictV d) =>
      (match lookupD d "a" with
       | some (.objV _ _) => 0
       | some (.dictV _) => 1
       | _ => 2)
  | _ => 3

/-! ### Claim theorems -/

/-- C2: the spec requires that encoding never mutates the object (§3,
§8, corrected from the source in §9), but `serialize_object` permanently
sets the `_serialized_type` attribute on the live object: evaluating the
embedded code on a one-field `m.Point` instance shows the object after
the call carries the extra attribute, so it is not the object passed
in. -/
theorem C2_mutation_bug :
    serialize_object envPoint false (.objV tyPoint [("x", .intV 1)]) =
      .ok ([("x", .intV 1), (tagKey, .strV "m.Point")],
        .objV tyPoint [("x", .intV 1), (tagKey, .strV "m.Point")]) ∧
    JVal.objV tyPoint [("x", .intV 1), (tagKey, .strV "m.Point")] ≠
      JVal.objV tyPoint [("x", .intV 1)] := by
  refine ⟨rfl, ?_⟩
  intro h
  have hlen := congrArg (fun v => (fieldsOf v).length) h
  simp [fieldsOf] at hlen

/-- C3 counterexample: a mapping without the discriminator key does not
decode to a generic mapping; `deserialize_dict` reaches
`obj['_serialized_type']` and fails with a `KeyError` (both through the
`deserialize` dispatcher and directly). -/
theorem C3_counterexample :
    deserialize envEmpty false 3 (.dictV [("a", .intV 1)]) =
      .error (.keyError tagKey) ∧
    deserialize_dict envEmpty false 3 [("a", .intV 1)] =
      .error (.keyError tagKey) := ⟨rfl, rfl⟩

/-- C3 (amended): for every mapping without the discriminator key,
`deserialize_dict` fails (with the discriminator `KeyError` once the
field loop itself succeeds) instead of returning a generic untyped
mapping. -/
theorem C3_untagged_fails (env : Env) (priv : Bool) (fuel : Nat)
    (obj : List (String × JVal)) (h : lookupD obj tagKey = none) :
    ∃ e, deserialize_dict env priv fuel obj = .error e := by
  simp only [deserialize_dict, deserialize_dictF, h]
  cases hcf : collectFields priv (fun x => deserialize env priv fuel x) obj with
  | error e => exact ⟨e, rfl⟩
  | ok dd =>
      refine ⟨.keyError tagKey, ?_⟩
      show reconstruct env dd obj = .error (.keyError tagKey)
      simp only [reconstruct, h]

/-- Witness for C3_untagged_fails at a concrete untagged mapping. -/
theorem C3_untagged_fails_witness :
    lookupD [("a", JVal.intV 1)] tagKey = none ∧
    ∃ e, deserialize_dict envEmpty false 3 [("a", JVal.intV 1)] =
      .error e :=
  ⟨rfl, C3_untagged_fails envEmpty false 3 [("a", JVal.intV 1)] rfl⟩

/-- C4: when the value's runtime type has both a registered encoder and
a registered type descriptor, `serialize_object` takes the codec path:
it returns exactly the encoder's output with the discriminator set to
the type's `__name__`, and does not touch the object (no generic field
enumeration). -/
theorem C4_codec_precedence (env : Env) (priv : Bool) (v : JVal)
    (enc : EncFn) (td : TypeData)
    (h1 : lookupD env.serializers (typeOf v) = some enc)
    (_h2 : lookupD env.serializable_types (typeOf v).fullName = some td) :
    serialize_object env priv v =
      .ok (dictSet (enc v) tagKey (.strV (typeOf v).shortName), v) := by
  simp only [serialize_object, h1]

/-- Witness for C4_codec_precedence: `datetime` with both the codec and
a descriptor registered. -/
theorem C4_codec_precedence_witness :
    lookupD envDtBoth.serializers (typeOf (.dtV "2023-01-01 00:00:00"))
      = some serialize_datetime ∧
    lookupD envDtBoth.serializable_types
      (typeOf (.dtV "2023-01-01 00:00:00")).fullName
      = some ⟨tyDatetime, [], []⟩ ∧
    serialize_object envDtBoth false (.dtV "2023-01-01 00:00:00") =
      .ok (dictSet (serialize_datetime (.dtV "2023-01-01 00:00:00"))
        tagKey (.strV (typeOf (.dtV "2023-01-01 00:00:00")).shortName),
        .dtV "2023-01-01 00:00:00") :=
  ⟨rfl, rfl, C4_codec_precedence envDtBoth false (.dtV "2023-01-01 00:00:00")
    serialize_datetime ⟨tyDatetime, [], []⟩ rfl rfl⟩

/-- C8: a value whose runtime type has neither a registered encoder nor
a registered descriptor fails to encode (with the `TypeError` for
unregistered serializable types when the value has a `__dict__`, and
the final `TypeError` otherwise). -/
theorem C8_unknown_type (env : Env) (priv : Bool) (v : JVal)
    (h1 : lookupD env.serializers (typeOf v) = none)
    (h2 : lookupD env.serializable_types (typeOf v).fullName = none) :
    ∃ e, serialize_object env priv v = .error e := by
  cases v with
  | objV t f =>
      refine ⟨.typeNotRegistered t.fullName, ?_⟩
      simp only [serialize_object, h1]
      rw [show lookupD env.serializable_types t.fullName = none from h2]
  | null => exact ⟨.noSerializer, by simp only [serialize_object, h1]⟩
  | boolV b => exact ⟨.noSerializer, by simp only [serialize_object, h1]⟩
  | intV i => exact ⟨.noSerializer, by simp only [serialize_object, h1]⟩
  | strV s => exact ⟨.noSerializer, by simp only [serialize_object, h1]⟩
  | listV l => exact ⟨.noSerializer, by simp only [serialize_object, h1]⟩
  | dictV d => exact ⟨.noSerializer, by simp only [serialize_object, h1]⟩
  | dtV s => exact ⟨.noSerializer, by simp only [serialize_object, h1]⟩

/-- Witness for C8_unknown_type: an unregistered `datetime` value in an
empty registry. -/
theorem C8_unknown_type_witness :
    lookupD envEmpty.serializers (typeOf (.dtV "t")) = none ∧
    lookupD envEmpty.serializable_types (typeOf (.dtV "t")).fullName
      = none ∧
    ∃ e, serialize_object envEmpty false (.dtV "t") = .error e :=
  ⟨rfl, rfl, C8_unknown_type envEmpty false (.dtV "t") rfl rfl⟩

/-- C9: the two registrations are asymmetric exactly as the source has
them: `Deserializer.__init__` raises on a duplicate type name while
`Serializer.__init__` silently overwrites the previous encoder (the
subsequent lookup yields the new function). -/
theorem C9_registration_asymmetry (sreg : List (RTType × EncFn))
    (dreg : List (String × DecFn)) (ty : RTType) (tn : String)
    (g : EncFn) (gd : DecFn)
    (_hs : (lookupD sreg ty).isSome = true)
    (hd : (lookupD dreg tn).isSome = true) :
    deserializerInit dreg tn gd = .error .duplicateRegistration ∧
    lookupD (serializerInit sreg ty g) ty = some g := by
  constructor
  · simp only [deserializerInit, hd, if_true]
  · exact lookupD_dictSet_self sreg ty g

/-- Witness for C9_registration_asymmetry on concrete registries that
already hold an entry for the type being re-registered. -/
theorem C9_registration_asymmetry_witness :
    (lookupD [(tyDatetime, (fun _ => [] : EncFn))] tyDatetime).isSome
      = true ∧
    (lookupD [("datetime", deserialize_datetime)] "datetime").isSome
      = true ∧
    (deserializerInit [("datetime", deserialize_datetime)] "datetime"
        deserialize_datetime = .error .duplicateRegistration ∧
      lookupD (serializerInit [(tyDatetime, (fun _ => [] : EncFn))]
        tyDatetime serialize_datetime) tyDatetime
        = some serialize_datetime) :=
  ⟨rfl, rfl, C9_registration_asymmetry
    [(tyDatetime, (fun _ => [] : EncFn))]
    [("datetime", deserialize_datetime)]
    tyDatetime "datetime" serialize_datetime deserialize_datetime rfl rfl⟩

/-- The dict produced by the descriptor path of `serialize_object`:
private fields removed unless requested, transient fields removed, then
the discriminator set. -/
def descrDict (td : TypeData) (priv : Bool) (t : RTType)
    (f : List (String × JVal)) : List (String × JVal) :=
  let f1 := if priv then f else f.filter (fun kv => !(startsUnderscore kv.1))
  let f2 := if td.transient.isEmpty then f1
    else f1.filter (fun kv => !(memStr td.transient kv.1))
  dictSet f2 tagKey (.strV t.fullName)

/-- The live object's `__dict__` after the descriptor path of
`serialize_object`: the filtered dict with the discriminator set, with
the removed private and transient attributes re-set at the end. -/
def descrMut (td : TypeData) (priv : Bool) (t : RTType)
    (f : List (String × JVal)) : List (String × JVal) :=
  let f1 := if priv then f else f.filter (fun kv => !(startsUnderscore kv.1))
  let ign1 : List (String × JVal) :=
    if priv then [] else f.filter (fun kv => startsUnderscore kv.1)
  let f2 := if td.transient.isEmpty then f1
    else f1.filter (fun kv => !(memStr td.transient kv.1))
  let ign2 : List (String × JVal) :=
    if td.transient.isEmpty then []
    else f1.filter (fun kv => memStr td.transient kv.1)
  (ign1 ++ ign2).foldl (fun acc kv => dictSet acc kv.1 kv.2)
    (dictSet f2 tagKey (.strV t.fullName))

theorem serialize_object_descr (env : Env) (t : RTType)
    (f : List (String × JVal)) (td : TypeData) (priv : Bool)
    (h1 : lookupD env.serializers t = none)
    (h2 : lookupD env.serializable_types t.fullName = some td) :
    serialize_object env priv (.objV t f) =
      .ok (descrDict td priv t f, .objV t (descrMut td priv t f)) := by
  cases priv <;> by_cases he : td.transient.isEmpty <;>
    simp only [serialize_object, typeOf, h1, h2, partitionRemove,
      descrDict, descrMut, he, if_true, if_false, Bool.false_eq_true,
      Bool.true_eq_false]

/-- C7: a field named in a registered type's non-empty transient list
(and distinct from the reserved discriminator key, which §3 forbids
fields from sharing) never appears in the descriptor-path output,
whatever the private flag. -/
theorem C7_transient_excluded (env : Env) (t : RTType)
    (f : List (String × JVal)) (td : TypeData) (priv : Bool) (k : String)
    (h1 : lookupD env.serializers t = none)
    (h2 : lookupD env.serializable_types t.fullName = some td)
    (hk : memStr td.transient k = true)
    (hkt : k ≠ tagKey) :
    (∃ p, serialize_object env priv (.objV t f) = .ok p) ∧
    ∀ d o', serialize_object env priv (.objV t f) = .ok (d, o') →
      lookupD d k = none := by
  have hform := serialize_object_descr env t f td priv h1 h2
  refine ⟨⟨_, hform⟩, ?_⟩
  intro d o'' h
  rw [hform] at h
  have hd : descrDict td priv t f = d :=
    congrArg Prod.fst (Except.ok.inj h)
  rw [← hd]
  simp only [descrDict]
  rw [lookupD_dictSet_ne _ _ _ _ hkt]
  rw [memStr_isEmpty_false td.transient k hk]
  simp only [Bool.false_eq_true, if_false]
  rw [lookupD_filter (fun x => !(memStr td.transient x))]
  simp [hk]

def tyTr : RTType := ⟨"Job", "m.Job"⟩

/-- A type registered with the non-empty transient list `["tmp"]`. -/
def envTr : Env :=
  { serializers := []
    deserializers := []
    serializable_types := [("m.Job", ⟨tyTr, ["tmp"], ["self", "x"]⟩)] }

/-- Witness for C7_transient_excluded: the transient field `tmp` is
absent from the output even with private serialization on. -/
theorem C7_transient_excluded_witness :
    lookupD envTr.serializers tyTr = none ∧
    lookupD envTr.serializable_types tyTr.fullName
      = some ⟨tyTr, ["tmp"], ["self", "x"]⟩ ∧
    memStr ["tmp"] "tmp" = true ∧
    ((∃ p, serialize_object envTr true
        (.objV tyTr [("x", .intV 1), ("tmp", .intV 9)]) = .ok p) ∧
      ∀ d o', serialize_object envTr true
        (.objV tyTr [("x", .intV 1), ("tmp", .intV 9)]) = .ok (d, o') →
        lookupD d "tmp" = none) :=
  ⟨rfl, rfl, rfl, C7_transient_excluded envTr tyTr
    [("x", .intV 1), ("tmp", .intV 9)] ⟨tyTr, ["tmp"], ["self", "x"]⟩
    true "tmp" rfl rfl rfl (by decide)⟩

def tyQ : RTType := ⟨"Q", "m.Q"⟩

/-- A type whose transient list names a private field. -/
def envQ : Env :=
  { serializers := []
    deserializers := []
    serializable_types := [("m.Q", ⟨tyQ, ["_t"], ["self"]⟩)] }

/-- C6 counterexample: with `serialize_private_attributes = true` the
private field `_t` is still dropped because it is also transient, so
"include_private includes every private-named field" fails as stated. -/
theorem C6_counterexample :
    serialize_object envQ true (.objV tyQ [("_t", .intV 5)]) =
      .ok ([(tagKey, .strV "m.Q")],
        .objV tyQ [(tagKey, .strV "m.Q"), ("_t", .intV 5)]) ∧
    lookupD [(tagKey, JVal.strV "m.Q")] "_t" = none := ⟨rfl, rfl⟩

/-- C6 (amended): on the descriptor path, encoding without private
serialization omits every private-named field (only the reserved
discriminator key itself is underscore-named in the output), and
encoding with private serialization keeps every private-named field
that is not transient (and not the reserved key), with its original
value. -/
theorem C6_private_policy (env : Env) (t : RTType)
    (f : List (String × JVal)) (td : TypeData)
    (h1 : lookupD env.serializers t = none)
    (h2 : lookupD env.serializable_types t.fullName = some td) :
    (∃ p, serialize_object env false (.objV t f) = .ok p) ∧
    (∃ p, serialize_object env true (.objV t f) = .ok p) ∧
    (∀ d o', serialize_object env false (.objV t f) = .ok (d, o') →
      ∀ k, k ∈ d.map Prod.fst → startsUnderscore k = true → k = tagKey) ∧
    (∀ d o', serialize_object env true (.objV t f) = .ok (d, o') →
      ∀ k, startsUnderscore k = true → memStr td.transient k = false →
        k ≠ tagKey → lookupD d k = lookupD f k) := by
  have hF := serialize_object_descr env t f td false h1 h2
  have hT := serialize_object_descr env t f td true h1 h2
  have hdF : descrDict td false t f =
      dictSet (if td.transient.isEmpty then
          f.filter (fun kv => !(startsUnderscore kv.1))
        else (f.filter (fun kv => !(startsUnderscore kv.1))).filter
          (fun kv => !(memStr td.transient kv.1)))
        tagKey (.strV t.fullName) := by
    simp [descrDict]
  have hdT : descrDict td true t f =
      dictSet (if td.transient.isEmpty then f
        else f.filter (fun kv => !(memStr td.transient kv.1)))
        tagKey (.strV t.fullName) := by
    simp [descrDict]
  refine ⟨⟨_, hF⟩, ⟨_, hT⟩, ?_, ?_⟩
  · intro d o' h k hk hu
    rw [hF] at h
    have hd : descrDict td false t f = d :=
      congrArg Prod.fst (Except.ok.inj h)
    rw [← hd, hdF] at hk
    rcases mem_keys_dictSet _ _ _ _ hk with hmem | htag
    · exfalso
      by_cases he : td.transient.isEmpty = true
      · rw [if_pos he] at hmem
        obtain ⟨kv, hkv, hkvk⟩ := List.mem_map.mp hmem
        have := List.of_mem_filter hkv
        rw [hkvk, hu] at this
        exact Bool.noConfusion this
      · rw [if_neg he] at hmem
        obtain ⟨kv, hkv, hkvk⟩ := List.mem_map.mp hmem
        have hkv' := List.mem_of_mem_filter hkv
        have := List.of_mem_filter hkv'
        rw [hkvk, hu] at this
        exact Bool.noConfusion this
    · exact htag
  · intro d o' h k hu htr hkt
    rw [hT] at h
    have hd : descrDict td true t f = d :=
      congrArg Prod.fst (Except.ok.inj h)
    rw [← hd, hdT]
    rw [lookupD_dictSet_ne _ _ _ _ hkt]
    by_cases he : td.transient.isEmpty = true
    · rw [if_pos he]
    · rw [if_neg he]
      rw [lookupD_filter (fun x => !(memStr td.transient x))]
      simp [htr]

def tyR : RTType := ⟨"R", "m.R"⟩

/-- A type with a non-transient private field for the C6 witness. -/
def envR : Env :=
  { serializers := []
    deserializers := []
    serializable_types := [("m.R", ⟨tyR, [], ["self", "x"]⟩)] }

def fR : List (String × JVal) := [("x", .intV 1), ("_c", .intV 2)]

def dR : List (String × JVal) :=
  [("x", .intV 1), ("_c", .intV 2), (tagKey, .strV "m.R")]

def oR : JVal := .objV tyR dR

/-- Witness for C6_private_policy: with private serialization on, the
private non-transient field `_c` survives with its value. -/
theorem C6_private_policy_witness :
    serialize_object envR true (.objV tyR fR) = .ok (dR, oR) ∧
    lookupD dR "_c" = lookupD fR "_c" :=
  ⟨rfl, (C6_private_policy envR tyR fR ⟨tyR, [], ["self", "x"]⟩ rfl
    rfl).2.2.2 dR oR rfl "_c" rfl rfl (by decide)⟩

/-- C5: when a tagged mapping is decoded through a type descriptor (no
registered decoder), `deserialize_dict` splits the decoded fields `dd`
by membership in the constructor signature, builds the instance from
the accepted fields (the modelled `cls(**kwargs)` stores each named
argument as an attribute), assigns the remaining fields onto it, and
the result answers every field lookup exactly as `dd` does. -/
theorem C5_reconstruction (env : Env) (priv : Bool) (fuel : Nat)
    (obj dd : List (String × JVal)) (tn : String) (td : TypeData)
    (hnd : nodupKeys obj = true)
    (htag : lookupD obj tagKey = some (.strV tn))
    (hnodec : lookupD env.deserializers tn = none)
    (hty : lookupD env.serializable_types tn = some td)
    (hdd : collectFields priv (fun x => deserialize env priv fuel x) obj
      = .ok dd) :
    deserialize_dict env priv fuel obj =
      .ok (.objV td.cls
        (dd.filter (fun kv => memStr td.ctorParams kv.1) ++
         dd.filter (fun kv => !(memStr td.ctorParams kv.1))), obj) ∧
    ∀ k, lookupD (dd.filter (fun kv => memStr td.ctorParams kv.1) ++
         dd.filter (fun kv => !(memStr td.ctorParams kv.1))) k =
      lookupD dd k := by
  constructor
  · simp only [deserialize_dict, deserialize_dictF, htag, hnodec]
    rw [hdd]
    show reconstruct env dd obj = _
    simp only [reconstruct, htag, hty]
    rw [foldl_setAttr_objV]
    have hdisj : ∀ p ∈ dd.filter (fun kv => !(memStr td.ctorParams kv.1)),
        lookupD (dd.filter (fun kv => memStr td.ctorParams kv.1)) p.1
          = none := by
      intro p hpmem
      have hpfalse : memStr td.ctorParams p.1 = false := by
        have := List.of_mem_filter hpmem
        simpa using this
      rw [lookupD_filter (fun x => memStr td.ctorParams x)]
      simp [hpfalse]
    have hndd : nodupKeys dd = true :=
      collectFields_nodup priv _ obj dd hnd hdd
    have hndE : nodupKeys (dd.filter (fun kv => !(memStr td.ctorParams kv.1)))
        = true := nodupKeys_filter _ _ hndd
    rw [foldl_dictSet_append _ _ hdisj hndE]
  · intro k
    rw [lookupD_append,
      lookupD_filter (fun x => memStr td.ctorParams x),
      lookupD_filter (fun x => !(memStr td.ctorParams x))]
    by_cases hm : memStr td.ctorParams k = true
    · rw [if_pos hm]
      cases h0 : lookupD dd k with
      | some x => rfl
      | none => simp [hm]
    · have hm' : memStr td.ctorParams k = false := by
        simpa using hm
      rw [if_neg (by simp [hm'])]
      simp [hm']

def tyE : RTType := ⟨"E", "m.E"⟩

/-- A type whose constructor accepts `x` but not the extra field `c`. -/
def envE : Env :=
  { serializers := []
    deserializers := []
    serializable_types := [("m.E", ⟨tyE, [], ["self", "x"]⟩)] }

def objE : List (String × JVal) :=
  [("c", .intV 9), ("x", .intV 1), (tagKey, .strV "m.E")]

/-- Witness for C5_reconstruction: field `c` is not constructor-accepted
and is assigned after construction; the instance carries both fields. -/
theorem C5_reconstruction_witness :
    nodupKeys objE = true ∧
    lookupD objE tagKey = some (.strV "m.E") ∧
    collectFields false (fun x => deserialize envE false 3 x) objE
      = .ok [("c", .intV 9), ("x", .intV 1)] ∧
    deserialize_dict envE false 3 objE =
      .ok (.objV tyE ([("x", .intV 1)] ++ [("c", .intV 9)]), objE) :=
  ⟨rfl, rfl, rfl,
    (C5_reconstruction envE false 3 objE [("c", .intV 9), ("x", .intV 1)]
      "m.E" ⟨tyE, [], ["self", "x"]⟩ rfl rfl rfl rfl rfl).1⟩

/-- C10: when the discriminator names a registered decoder,
`deserialize_dict` returns the decoder's result on the tag-stripped
mapping, and the mapping afterwards holds exactly the same key-value
bindings as before (the tag is deleted and then re-inserted, which can
only move it to the end). -/
theorem C10_decoder_frame (env : Env) (priv : Bool) (fuel : Nat)
    (obj : List (String × JVal)) (tn : String) (dec : DecFn)
    (hnd : nodupKeys obj = true)
    (htag : lookupD obj tagKey = some (.strV tn))
    (hdec : lookupD env.deserializers tn = some dec) :
    deserialize_dict env priv fuel obj =
      .ok (dec (eraseKey obj tagKey),
        eraseKey obj tagKey ++ [(tagKey, .strV tn)]) ∧
    ∀ k, lookupD (eraseKey obj tagKey ++ [(tagKey, .strV tn)]) k =
      lookupD obj k := by
  constructor
  · simp only [deserialize_dict, deserialize_dictF, htag, hdec]
  · intro k
    by_cases hk : k = tagKey
    · subst hk
      rw [lookupD_append, lookupD_eraseKey_self _ _ hnd, htag]
      rfl
    · rw [lookupD_append, lookupD_eraseKey_ne _ _ _ hk]
      have h1 : lookupD [(tagKey, JVal.strV tn)] k = none := by
        simp only [lookupD, if_neg (Ne.symm hk)]
      rw [h1]
      cases lookupD obj k <;> rfl

/-- Registries holding only the `datetime` decoder. -/
def envDt : Env :=
  { serializers := []
    deserializers := [("datetime", deserialize_datetime)]
    serializable_types := [] }

def mDt : List (String × JVal) :=
  [(tagKey, .strV "datetime"), ("datetime", .strV "2023-01-01 00:00:00")]

/-- Witness for C10_decoder_frame: a tagged `datetime` mapping whose tag
is not last, so the re-insertion reorders it but preserves every
binding. -/
theorem C10_decoder_frame_witness :
    nodupKeys mDt = true ∧
    lookupD mDt tagKey = some (.strV "datetime") ∧
    lookupD envDt.deserializers "datetime" = some deserialize_datetime ∧
    deserialize_dict envDt false 1 mDt =
      .ok (deserialize_datetime (eraseKey mDt tagKey),
        eraseKey mDt tagKey ++ [(tagKey, .strV "datetime")]) :=
  ⟨rfl, rfl, rfl,
    (C10_decoder_frame envDt false 1 mDt "datetime" deserialize_datetime
      rfl rfl rfl).1⟩

/-- C1 counterexample: the instance `xWrap` is acyclic, registered, and
built only from allowed (non-excluded, public) fields, yet the decoded
result of its encoding differs from it on the constructor-visible field
"d": the `Y` instance inside the plain dict comes back as a tagged raw
mapping, not as a `Y`. -/
theorem C1_counterexample :
    (serialize envWrap false 9 xWrap).bind (deserialize envWrap false 9)
      = .ok rWrap ∧
    lookupD (fieldsOf rWrap) "d" ≠ lookupD (fieldsOf xWrap) "d" := by
  refine ⟨rfl, ?_⟩
  intro h
  exact absurd (congrArg probeD h) (by decide)

/-- C1 (amended): for every registered type and acyclic instance built
only from allowed public fields whose values avoid the breaking shapes
(no serializable value strictly inside an untagged mapping, no mapping
inside a sequence, no codec-typed opaque values, constructor-accepted
fields stored first), decoding the encoding returns the instance
exactly. -/
theorem C1_roundTrip (env : Env) (n : Nat) (t : RTType)
    (f : List (String × JVal))
    (h : goodVal env n false (.objV t f) = true) :
    (serialize env false n (.objV t f)).bind
      (deserialize env false (n + 1)) = .ok (.objV t f) := by
  obtain ⟨d, h1, _, h3⟩ := roundTripAux env n false _ h
  rw [h1]
  exact h3

/-- Witness for C1_roundTrip: a nested `A{b = B{y = 7}}` instance
round-trips through the two-type registry. -/
theorem C1_roundTrip_witness :
    goodVal envNested 5 false (.objV tyA fA) = true ∧
    (serialize envNested false 5 (.objV tyA fA)).bind
      (deserialize envNested false 6) = .ok (.objV tyA fA) :=
  ⟨rfl, C1_roundTrip envNested 5 tyA fA rfl⟩

end JsonSer
